import Mathlib

/-!
Verification of the k-nearest-neighbor evaluation engine of the
face/digit classification project (`knn/knn_main.py`).

Pure functions of the driver (`translate_pixels`, `load_data_file`, the
evaluation loop, best-k selection) are embedded directly from the source.
The `KNN` class imported by the driver (`from knn import KNN`) is not part
of the repository snapshot, so the distance ranking and per-k majority-vote
classification are modelled from the specification text; such definitions
carry a doc comment starting with `Modelled from the spec:`.
-/

namespace KnnSpec

/-- From `translate_pixels` in `knn_main.py`: one output entry per input
character, mapping the mark characters to 1 and 2 and anything else to 0. -/
def translate_pixels (line : List Char) : List Int :=
  line.map fun c => if c = '+' then 1 else if c = '#' then 2 else 0

/-- From `load_data_file` in `knn_main.py`: helper consuming the line list
block by block; `fuel` bounds the recursion (the driver's loop consumes at
least one line per iteration). A block of `height` lines is flattened into
one example; when fewer than `height` lines remain the function returns the
examples collected so far, discarding the incomplete trailing block. -/
def load_data_go : Nat → Nat → List (List Char) → List (List Int)
  | 0, _, _ => []
  | fuel + 1, height, lines =>
    if lines.length = 0 then []
    else if lines.length < height then []
    else ((lines.take height).map translate_pixels).flatten ::
      load_data_go fuel height (lines.drop height)

/-- From `load_data_file` in `knn_main.py`: the file's lines are consumed in
original order (the source reverses the list and pops from the end), grouped
into examples of `height` consecutive lines each. -/
def load_data_file (height : Nat) (lines : List (List Char)) : List (List Int) :=
  load_data_go lines.length height lines

/-- Modelled from the spec: the `DistanceEngine` of the missing `knn.py`;
squared Euclidean distance over the integer pixel codes (the spec notes the
square root is optional since only the relative order matters). -/
def sqdist (q r : List Int) : Nat :=
  ((q.zip r).map fun p => (p.1 - p.2).natAbs * (p.1 - p.2).natAbs).sum

/-- Comparison of ranked entries `(distance, label)` by distance. -/
def distLE (a b : Nat × Int) : Prop := a.1 ≤ b.1

instance : DecidableRel distLE := fun a b => Nat.decLe a.1 b.1

instance : IsTotal (Nat × Int) distLE := ⟨fun a b => Nat.le_total a.1 b.1⟩

instance : IsTrans (Nat × Int) distLE := ⟨fun _ _ _ hab hbc => Nat.le_trans hab hbc⟩

/-- Modelled from the spec: the `NeighborRanker` of the missing `knn.py`; one
`(distance, label)` entry per training example, sorted ascending by distance
with a stable sort, so equidistant examples keep their original order. -/
def rank (q : List Int) (training : List (List Int × Int)) : List (Nat × Int) :=
  List.insertionSort distLE (training.map fun ex => (sqdist q ex.1, ex.2))

/-- The highest vote count attained by any label of `neigh`. -/
def maxVotes (neigh : List Int) : Nat :=
  (neigh.map fun l => neigh.count l).foldr max 0

/-- Modelled from the spec: the per-k majority vote of the `MultiKClassifier`
of the missing `knn.py`; among the first `k` ranked neighbors, scan in
ascending-distance order and return the first label whose vote count equals
the maximum vote count. -/
def classify (ranked : List (Nat × Int)) (k : Nat) : Option Int :=
  let neigh := (ranked.take k).map Prod.snd
  neigh.find? fun l => neigh.count l == maxVotes neigh

/-- Modelled from the spec: the per-k prediction list returned by
`my_knn.knn(test_row, k_vals)` in the driver, one entry per candidate k in
the `CandidateKSet`'s iteration order. -/
def predictions (training : List (List Int × Int)) (kList : List Nat)
    (q : List Int) : List Int :=
  kList.map fun k => (classify (rank q training) k).getD 0

/-- From `knn_main.py` line 136: the headline guess shown to the user is
`predictions[-1]`, the last entry of the per-k prediction list. -/
def headline (training : List (List Int × Int)) (kList : List Nat)
    (q : List Int) : Option Int :=
  (predictions training kList q).getLast?

/-- From `knn_main.py` lines 132-134: one pass of the evaluation loop body
over the counter list; the counter of the k at position `idx` is incremented
exactly when `predictions[idx]` equals the true label. -/
def evalStep : List (Nat × Nat) → List Int → Int → List (Nat × Nat)
  | [], _, _ => []
  | _ :: _, [], _ => []
  | (k, c) :: kv, p :: ps, lab =>
    (k, if p = lab then c + 1 else c) :: evalStep kv ps lab

/-- From `knn_main.py` lines 130-134: the evaluation loop over the test set,
threading the per-k counter list through `evalStep`. -/
def runEval (kv : List (Nat × Nat)) (test : List (List Int × Int))
    (predF : List Int → List Int) : List (Nat × Nat) :=
  test.foldl (fun acc ex => evalStep acc (predF ex.1) ex.2) kv

/-- From `knn_main.py` line 80: `dict.fromkeys(k_vals_in, 0)`, the per-k
counters in iteration order, initialized to zero. -/
def initCounters (kList : List Nat) : List (Nat × Nat) :=
  kList.map fun k => (k, 0)

/-- From `knn_main.py` line 156: the fold behind Python's
`max(k_vals, key=k_vals.get)`, which keeps the current candidate unless a
strictly larger counter value appears later. -/
def selectGo : List (Nat × Nat) → Nat × Nat → Nat × Nat
  | [], best => best
  | p :: rest, best => if best.2 < p.2 then selectGo rest p else selectGo rest best

/-- From `knn_main.py` line 156: `selected_k = max(k_vals, key=k_vals.get)`,
the first key in iteration order whose counter attains the maximum. -/
def select_k : List (Nat × Nat) → Option Nat
  | [] => none
  | x :: xs => some (selectGo xs x).1

/-- The error kinds of the evaluation run: the three named by the spec, plus
the division-by-zero the driver actually raises when the test set is empty
(`knn_main.py` line 173 divides by `df_test_sample.shape[0]`). -/
inductive RunError
  | EmptyDataset
  | DimensionMismatch
  | InsufficientNeighbors
  | ZeroDivision
deriving DecidableEq

/-- The evaluation pipeline of `main` in `knn_main.py`. The checks for an
empty training set and for invalid k values are modelled from the spec (they
belong to the missing `knn.py`'s classifier construction / first use, and the
dataset check is taken to come first); the evaluation loop and the final
division by the number of test examples are from the driver source, which
performs no emptiness check on the test set before dividing. -/
def mainRun (training test : List (List Int × Int)) (kList : List Nat) :
    Except RunError (List (Nat × Nat) × Option Nat) :=
  if training = [] then .error .EmptyDataset
  else if kList.any (fun k => decide (k < 1) || decide (training.length < k)) then
    .error .InsufficientNeighbors
  else
    let kv := runEval (initCounters kList) test (predictions training kList)
    if test = [] then .error .ZeroDivision
    else .ok (kv, select_k kv)

/-! ## Theorems -/

/-- C9: `translate_pixels` returns a list of exactly the input's length whose
entries are all in {0, 1, 2}: 1 at positions holding `'+'`, 2 at positions
holding `'#'`, and 0 at every other position; unexpected characters are
silently mapped to 0 (the function is total, so no error is possible). -/
theorem c9_translate_pixels (line : List Char) :
    (translate_pixels line).length = line.length
    ∧ (∀ x ∈ translate_pixels line, x = 0 ∨ x = 1 ∨ x = 2)
    ∧ (∀ i : Fin line.length,
        (line.get i = '+' → (translate_pixels line)[(i : Nat)]? = some 1)
        ∧ (line.get i = '#' → (translate_pixels line)[(i : Nat)]? = some 2)
        ∧ (line.get i ≠ '+' → line.get i ≠ '#' →
            (translate_pixels line)[(i : Nat)]? = some 0)) := by
  refine ⟨List.length_map _ _, ?_, ?_⟩
  · intro x hx
    rcases List.mem_map.mp hx with ⟨c, _, hc⟩
    by_cases h1 : c = '+'
    · right; left; simp [← hc, h1]
    · by_cases h2 : c = '#'
      · right; right; simp [← hc, h1, h2]
      · left; simp [← hc, h1, h2]
  · intro i
    have hget : (translate_pixels line)[(i : Nat)]? =
        some (if line.get i = '+' then 1 else if line.get i = '#' then 2 else 0) := by
      rw [translate_pixels, List.getElem?_map, List.getElem?_eq_getElem i.isLt]
      simp
    simp only [List.get_eq_getElem] at hget ⊢
    refine ⟨fun h => ?_, fun h => ?_, fun h1 h2 => ?_⟩
    · rw [hget]; simp [h]
    · rw [hget]
      have hne : ('#' : Char) ≠ '+' := by decide
      simp only [h]
      simp [hne]
    · rw [hget]; simp [h1, h2]

/-- Witness for C9 at the concrete line `"+#x"`. -/
theorem c9_translate_pixels_witness :
    (translate_pixels ['+', '#', 'x']).length = (['+', '#', 'x'] : List Char).length
    ∧ (∀ x ∈ translate_pixels ['+', '#', 'x'], x = 0 ∨ x = 1 ∨ x = 2)
    ∧ (∀ i : Fin (['+', '#', 'x'] : List Char).length,
        ((['+', '#', 'x'] : List Char).get i = '+' →
          (translate_pixels ['+', '#', 'x'])[(i : Nat)]? = some 1)
        ∧ ((['+', '#', 'x'] : List Char).get i = '#' →
          (translate_pixels ['+', '#', 'x'])[(i : Nat)]? = some 2)
        ∧ ((['+', '#', 'x'] : List Char).get i ≠ '+' →
            (['+', '#', 'x'] : List Char).get i ≠ '#' →
            (translate_pixels ['+', '#', 'x'])[(i : Nat)]? = some 0)) :=
  c9_translate_pixels ['+', '#', 'x']

/-- Helper for C10: closed form of the block-consuming loop. -/
theorem load_data_go_spec (height : Nat) (hh : 1 ≤ height) :
    ∀ fuel lines, lines.length ≤ fuel →
      load_data_go fuel height lines =
        (List.range (lines.length / height)).map
          (fun i => (((lines.drop (i * height)).take height).map
            translate_pixels).flatten) := by
  intro fuel
  induction fuel with
  | zero =>
    intro lines hlen
    have : lines = [] := List.eq_nil_of_length_eq_zero (Nat.le_zero.mp hlen)
    subst this
    simp [load_data_go]
  | succ fuel ih =>
    intro lines hlen
    rw [load_data_go]
    by_cases h0 : lines.length = 0
    · have : lines = [] := List.eq_nil_of_length_eq_zero h0
      subst this
      simp
    · rw [if_neg h0]
      by_cases h1 : lines.length < height
      · rw [if_pos h1, Nat.div_eq_of_lt h1]
        simp
      · rw [if_neg h1]
        have hle : height ≤ lines.length := Nat.le_of_not_lt h1
        have hdrop : (lines.drop height).length ≤ fuel := by
          rw [List.length_drop]; omega
        rw [ih (lines.drop height) hdrop]
        rw [Nat.div_eq_sub_div hh hle, List.range_succ_eq_map, List.map_cons,
          List.map_map, List.length_drop]
        congr 1
        · simp
        · apply List.map_congr_left
          intro i _
          simp only [Function.comp_apply, List.drop_drop]
          rw [show height + i * height = Nat.succ i * height by
            rw [Nat.succ_mul]; omega]

/-- C10: for `height ≥ 1`, `load_data_file` returns exactly
`⌊L / height⌋` examples, where `L` is the number of lines; example `i` is the
flattened translation of the `height` consecutive lines starting at line
`i * height`, and an incomplete trailing block of fewer than `height` lines
is silently dropped (no error is possible: the function is total). -/
theorem c10_load_data_file (height : Nat) (lines : List (List Char))
    (hh : 1 ≤ height) :
    (load_data_file height lines).length = lines.length / height
    ∧ load_data_file height lines =
        (List.range (lines.length / height)).map
          (fun i => (((lines.drop (i * height)).take height).map
            translate_pixels).flatten) := by
  have h := load_data_go_spec height hh lines.length lines (Nat.le_refl _)
  rw [load_data_file]
  exact ⟨by rw [h]; simp, h⟩

/-- Witness for C10: three one-character lines grouped in blocks of two give
a single example; the trailing incomplete block is dropped. -/
theorem c10_load_data_file_witness :
    1 ≤ 2
    ∧ ((load_data_file 2 [['+'], ['#'], ['x']]).length =
        ([['+'], ['#'], ['x']] : List (List Char)).length / 2
      ∧ load_data_file 2 [['+'], ['#'], ['x']] =
          (List.range (([['+'], ['#'], ['x']] : List (List Char)).length / 2)).map
            (fun i => ((([['+'], ['#'], ['x']] : List (List Char)).drop (i * 2)).take 2
              |>.map translate_pixels).flatten)) :=
  ⟨by decide, c10_load_data_file 2 [['+'], ['#'], ['x']] (by decide)⟩

/-- Every element of a list of naturals is bounded by its `foldr max 0`. -/
theorem le_foldr_max : ∀ (xs : List Nat), ∀ a ∈ xs, a ≤ xs.foldr max 0 := by
  intro xs
  induction xs with
  | nil => intro a ha; cases ha
  | cons x t ih =>
    intro a ha
    rcases List.mem_cons.mp ha with h | h
    · subst h; exact le_max_left _ _
    · exact le_trans (ih a h) (le_max_right _ _)

/-- The `foldr max 0` of a nonempty list of naturals is one of its elements. -/
theorem foldr_max_mem : ∀ (x : Nat) (xs : List Nat), (x :: xs).foldr max 0 ∈ x :: xs := by
  intro x xs
  induction xs generalizing x with
  | nil => simp
  | cons y t ih =>
    have hm := ih y
    rcases le_total x ((y :: t).foldr max 0) with h | h
    · rw [List.foldr_cons, max_eq_right h]
      exact List.mem_cons_of_mem _ hm
    · rw [List.foldr_cons, max_eq_left h]
      exact List.mem_cons_self _ _

/-- The maximum vote count of a nonempty neighbor list is attained. -/
theorem exists_count_eq_maxVotes (neigh : List Int) (hne : neigh ≠ []) :
    ∃ l ∈ neigh, neigh.count l = maxVotes neigh := by
  rcases neigh with _ | ⟨x, t⟩
  · exact absurd rfl hne
  · have hmem : maxVotes (x :: t) ∈ (x :: t).map fun l => (x :: t).count l := by
      rw [maxVotes, List.map_cons]
      exact foldr_max_mem _ _
    rcases List.mem_map.mp hmem with ⟨l, hl, hcount⟩
    exact ⟨l, hl, hcount⟩

/-- Every label's vote count is bounded by `maxVotes`. -/
theorem count_le_maxVotes (neigh : List Int) (l : Int) :
    neigh.count l ≤ maxVotes neigh := by
  by_cases h : l ∈ neigh
  · exact le_foldr_max _ _ (List.mem_map.mpr ⟨l, h, rfl⟩)
  · rw [List.count_eq_zero_of_not_mem h]
    exact Nat.zero_le _

/-- `find?` returns the element whose first occurrence is earliest among all
elements satisfying the predicate. -/
theorem find?_earliest (p : Int → Bool) :
    ∀ (xs : List Int) (a : Int), xs.find? p = some a →
      ∀ y ∈ xs, p y = true → xs.indexOf a ≤ xs.indexOf y := by
  intro xs
  induction xs with
  | nil => intro a ha; cases ha
  | cons x t ih =>
    intro a ha y hy hpy
    rw [List.find?_cons] at ha
    cases hpx : p x with
    | true =>
      rw [hpx] at ha
      have : a = x := by cases ha; rfl
      subst this
      simp [List.indexOf_cons_self]
    | false =>
      rw [hpx] at ha
      have hpa : p a = true := List.find?_some ha
      have hax : a ≠ x := fun h => by rw [h, hpx] at hpa; cases hpa
      have hyx : y ≠ x := fun h => by rw [h, hpx] at hpy; cases hpy
      have hyt : y ∈ t := by
        rcases List.mem_cons.mp hy with h | h
        · exact absurd h hyx
        · exact h
      rw [List.indexOf_cons_ne _ (Ne.symm hax), List.indexOf_cons_ne _ (Ne.symm hyx)]
      exact Nat.succ_le_succ (ih a ha y hyt hpy)

/-- C1: for `1 ≤ k ≤` the length of the ranked list, `classify` returns a
label drawn from the first `k` neighbor entries whose vote count is maximal
among all labels, and among the labels tied at the maximal count it is the
one whose first occurrence (the closest individual neighbor, since the scan
is in ascending-distance order) comes earliest. -/
theorem c1_classify_majority (ranked : List (Nat × Int)) (k : Nat)
    (hk1 : 1 ≤ k) (hk2 : k ≤ ranked.length) :
    ∃ l, classify ranked k = some l
      ∧ l ∈ (ranked.take k).map Prod.snd
      ∧ (∀ l' : Int, ((ranked.take k).map Prod.snd).count l' ≤
          ((ranked.take k).map Prod.snd).count l)
      ∧ (∀ l' ∈ (ranked.take k).map Prod.snd,
          ((ranked.take k).map Prod.snd).count l' =
            ((ranked.take k).map Prod.snd).count l →
          ((ranked.take k).map Prod.snd).indexOf l ≤
            ((ranked.take k).map Prod.snd).indexOf l') := by
  set neigh := (ranked.take k).map Prod.snd with hneigh
  have hlen : neigh.length = k := by
    rw [hneigh, List.length_map, List.length_take]
    omega
  have hne : neigh ≠ [] := by
    intro h
    rw [h] at hlen
    simp at hlen
    omega
  rcases exists_count_eq_maxVotes neigh hne with ⟨l₀, hl₀, hcnt₀⟩
  have hsome : (neigh.find? fun l => neigh.count l == maxVotes neigh).isSome = true := by
    rw [List.find?_isSome]
    exact ⟨l₀, hl₀, by rw [beq_iff_eq]; exact hcnt₀⟩
  rcases Option.isSome_iff_exists.mp hsome with ⟨a, ha⟩
  have hpa : neigh.count a = maxVotes neigh := by
    have := List.find?_some ha
    rwa [beq_iff_eq] at this
  refine ⟨a, ?_, List.mem_of_find?_eq_some ha, ?_, ?_⟩
  · rw [classify]
    exact ha
  · intro l'
    rw [hpa]
    exact count_le_maxVotes neigh l'
  · intro l' hl' hcnt'
    exact find?_earliest _ neigh a ha l' hl' (by rw [beq_iff_eq, hcnt', hpa])

/-- Witness for C1: `ranked = [(0, 5), (1, 8)]`, `k = 1` — the nearest
neighbor's label 5 wins. -/
theorem c1_classify_majority_witness :
    ∃ l, classify [(0, 5), (1, 8)] 1 = some l
      ∧ l ∈ (([(0, 5), (1, 8)] : List (Nat × Int)).take 1).map Prod.snd
      ∧ (∀ l' : Int, ((([(0, 5), (1, 8)] : List (Nat × Int)).take 1).map Prod.snd).count l' ≤
          ((([(0, 5), (1, 8)] : List (Nat × Int)).take 1).map Prod.snd).count l)
      ∧ (∀ l' ∈ (([(0, 5), (1, 8)] : List (Nat × Int)).take 1).map Prod.snd,
          ((([(0, 5), (1, 8)] : List (Nat × Int)).take 1).map Prod.snd).count l' =
            ((([(0, 5), (1, 8)] : List (Nat × Int)).take 1).map Prod.snd).count l →
          ((([(0, 5), (1, 8)] : List (Nat × Int)).take 1).map Prod.snd).indexOf l ≤
            ((([(0, 5), (1, 8)] : List (Nat × Int)).take 1).map Prod.snd).indexOf l') :=
  c1_classify_majority [(0, 5), (1, 8)] 1 (by decide) (by decide)

/-- Inserting an entry into a list keeps, per distance value, the entry in
front of every later entry at the same distance: the insertion point is
before every element of distance `≥ x.1`. -/
theorem filter_distEq_orderedInsert (d : Nat) (x : Nat × Int) :
    ∀ l : List (Nat × Int),
      (List.orderedInsert distLE x l).filter (fun e => e.1 == d) =
        if x.1 = d then x :: l.filter (fun e => e.1 == d)
        else l.filter (fun e => e.1 == d) := by
  intro l
  induction l with
  | nil =>
    by_cases h : x.1 = d <;>
      simp [List.orderedInsert, List.filter_cons, List.filter_nil, h]
  | cons y t ih =>
    rw [List.orderedInsert]
    by_cases hxy : distLE x y
    · rw [if_pos hxy]
      by_cases h : x.1 = d <;> by_cases hyd : y.1 = d <;>
        simp [List.filter_cons, h, hyd]
    · rw [if_neg hxy]
      have hyx : y.1 < x.1 := Nat.lt_of_not_le hxy
      rw [List.filter_cons, ih]
      by_cases h : x.1 = d
      · have hyd : ¬ y.1 = d := by omega
        simp [List.filter_cons, h, hyd]
      · by_cases hyd : y.1 = d <;> simp [List.filter_cons, h, hyd]

/-- Insertion sort by distance is stable: for each distance value `d`, the
subsequence of entries at distance `d` is unchanged. -/
theorem filter_distEq_insertionSort (d : Nat) :
    ∀ l : List (Nat × Int),
      (List.insertionSort distLE l).filter (fun e => e.1 == d) =
        l.filter (fun e => e.1 == d) := by
  intro l
  induction l with
  | nil => rfl
  | cons x t ih =>
    rw [List.insertionSort, filter_distEq_orderedInsert, List.filter_cons]
    by_cases h : x.1 = d
    · rw [if_pos h, ih]
      simp [h]
    · rw [if_neg h, ih]
      simp [h]

/-- C2: `rank` returns one `(distance, label)` entry per training example
(a permutation of the distance-tagged dataset, of equal length), sorted
ascending by distance; the sort is stable (per distance value, the entries
appear in the dataset's original insertion order); in particular, for a
two-example dataset whose examples are equidistant from the query, `classify`
at `k = 1` picks the label of the example inserted first. -/
theorem c2_rank_stable (q : List Int) (T : List (List Int × Int)) :
    (rank q T).length = T.length
    ∧ (rank q T).Perm (T.map fun ex => (sqdist q ex.1, ex.2))
    ∧ (rank q T).Sorted distLE
    ∧ (∀ d : Nat, (rank q T).filter (fun e => e.1 == d) =
        (T.map fun ex => (sqdist q ex.1, ex.2)).filter (fun e => e.1 == d))
    ∧ (∀ e1 e2 : List Int × Int, ∀ q2 : List Int,
        sqdist q2 e1.1 = sqdist q2 e2.1 →
          classify (rank q2 [e1, e2]) 1 = some e1.2) := by
  refine ⟨?_, ?_, ?_, ?_, ?_⟩
  · rw [rank, List.length_insertionSort, List.length_map]
  · exact List.perm_insertionSort distLE _
  · exact List.sorted_insertionSort distLE _
  · intro d
    exact filter_distEq_insertionSort d _
  · intro e1 e2 q2 heq
    have hrank : rank q2 [e1, e2] =
        [(sqdist q2 e1.1, e1.2), (sqdist q2 e2.1, e2.2)] := by
      rw [rank, List.map_cons, List.map_cons, List.map_nil, List.insertionSort,
        List.insertionSort, List.insertionSort, List.orderedInsert_nil,
        List.orderedInsert]
      rw [if_pos (by rw [distLE, heq])]
    rw [hrank, classify]
    simp [maxVotes, List.count_singleton]

/-- Witness for C2 at a concrete query and dataset with two equidistant
examples carrying different labels. -/
theorem c2_rank_stable_witness :
    (rank [0] [([0], 5), ([0], 8)]).length = ([([0], 5), ([0], 8)] : List (List Int × Int)).length
    ∧ (rank [0] [([0], 5), ([0], 8)]).Perm
        (([([0], 5), ([0], 8)] : List (List Int × Int)).map fun ex => (sqdist [0] ex.1, ex.2))
    ∧ (rank [0] [([0], 5), ([0], 8)]).Sorted distLE
    ∧ (rank [0] [([0], 5), ([0], 8)]).filter (fun e => e.1 == 0) =
        (([([0], 5), ([0], 8)] : List (List Int × Int)).map
          fun ex => (sqdist [0] ex.1, ex.2)).filter (fun e => e.1 == 0)
    ∧ classify (rank [0] [([0], 5), ([0], 8)]) 1 = some 5 := by
  have h := c2_rank_stable [0] [([0], 5), ([0], 8)]
  exact ⟨h.1, h.2.1, h.2.2.1, h.2.2.2.1 0,
    h.2.2.2.2 ([0], 5) ([0], 8) [0] (by decide)⟩

/-- Structure lemma for the `max`-with-key fold: either the accumulator wins
and bounds every later entry, or the result sits in the remaining list,
strictly exceeds the accumulator and everything before it, and bounds
everything after it. -/
theorem selectGo_decomp :
    ∀ (rest : List (Nat × Nat)) (best : Nat × Nat),
      (selectGo rest best = best ∧ ∀ p ∈ rest, p.2 ≤ best.2)
      ∨ (∃ pre post, rest = pre ++ selectGo rest best :: post
          ∧ best.2 < (selectGo rest best).2
          ∧ (∀ p ∈ pre, p.2 < (selectGo rest best).2)
          ∧ (∀ p ∈ post, p.2 ≤ (selectGo rest best).2)) := by
  intro rest
  induction rest with
  | nil =>
    intro best
    left
    exact ⟨rfl, by intro p hp; cases hp⟩
  | cons p rest ih =>
    intro best
    rw [selectGo]
    by_cases hlt : best.2 < p.2
    · rw [if_pos hlt]
      rcases ih p with ⟨hr, hall⟩ | ⟨pre, post, heq, hgt, hpre, hpost⟩
      · right
        refine ⟨[], rest, ?_, ?_, ?_, ?_⟩
        · rw [hr, List.nil_append]
        · rw [hr]; exact hlt
        · intro q hq; cases hq
        · rw [hr]; exact hall
      · right
        refine ⟨p :: pre, post, ?_, ?_, ?_, ?_⟩
        · rw [List.cons_append]; exact congrArg (List.cons p) heq
        · exact Nat.lt_trans hlt hgt
        · intro q hq
          rcases List.mem_cons.mp hq with h | h
          · rw [h]; exact hgt
          · exact hpre q h
        · exact hpost
    · rw [if_neg hlt]
      have hple : p.2 ≤ best.2 := Nat.le_of_not_lt hlt
      rcases ih best with ⟨hr, hall⟩ | ⟨pre, post, heq, hgt, hpre, hpost⟩
      · left
        refine ⟨hr, ?_⟩
        intro q hq
        rcases List.mem_cons.mp hq with h | h
        · rw [h]; exact hple
        · exact hall q h
      · right
        refine ⟨p :: pre, post, ?_, hgt, ?_, hpost⟩
        · rw [List.cons_append]; exact congrArg (List.cons p) heq
        · intro q hq
          rcases List.mem_cons.mp hq with h | h
          · rw [h]; exact Nat.lt_of_le_of_lt hple hgt
          · exact hpre q h

/-- C3: `select_k` (the embedding of `max(k_vals, key=k_vals.get)`) returns
the key of an entry whose counter bounds every counter in the list and which
is the first such entry in iteration order (every entry strictly before it
has a strictly smaller counter); on the spec's examples, counters
`[(3, 1), (1, 1)]` select k = 3 and `[(3, 1), (1, 2)]` select k = 1. -/
theorem c3_select_best_k (l : List (Nat × Nat)) (hne : l ≠ []) :
    (∃ k c pre post, select_k l = some k ∧ l = pre ++ (k, c) :: post
      ∧ (∀ p ∈ l, p.2 ≤ c) ∧ (∀ p ∈ pre, p.2 < c))
    ∧ select_k [(3, 1), (1, 1)] = some 3
    ∧ select_k [(3, 1), (1, 2)] = some 1 := by
  refine ⟨?_, by decide, by decide⟩
  rcases l with _ | ⟨x, xs⟩
  · exact absurd rfl hne
  · rw [select_k]
    rcases selectGo_decomp xs x with ⟨hr, hall⟩ | ⟨pre, post, heq, hgt, hpre, hpost⟩
    · refine ⟨(selectGo xs x).1, (selectGo xs x).2, [], xs, rfl, ?_, ?_, ?_⟩
      · rw [hr, List.nil_append, Prod.mk.eta]
      · intro p hp
        rcases List.mem_cons.mp hp with h | h
        · rw [h, hr]
        · rw [hr]; exact hall p h
      · intro p hp; cases hp
    · refine ⟨(selectGo xs x).1, (selectGo xs x).2, x :: pre, post, rfl, ?_, ?_, ?_⟩
      · rw [List.cons_append, Prod.mk.eta]; exact congrArg (List.cons x) heq
      · intro p hp
        rcases List.mem_cons.mp hp with h | h
        · rw [h]; exact Nat.le_of_lt hgt
        · rw [heq] at h
          rcases List.mem_append.mp h with h2 | h2
          · exact Nat.le_of_lt (hpre p h2)
          · rcases List.mem_cons.mp h2 with h3 | h3
            · rw [h3]
            · exact hpost p h3
      · intro p hp
        rcases List.mem_cons.mp hp with h | h
        · rw [h]; exact hgt
        · exact hpre p h

/-- Witness for C3 at the spec's concrete counter list `[(3, 1), (1, 2)]`. -/
theorem c3_select_best_k_witness :
    (∃ k c pre post, select_k [(3, 1), (1, 2)] = some k
      ∧ [(3, 1), (1, 2)] = pre ++ (k, c) :: post
      ∧ (∀ p ∈ ([(3, 1), (1, 2)] : List (Nat × Nat)), p.2 ≤ c)
      ∧ (∀ p ∈ pre, p.2 < c))
    ∧ select_k [(3, 1), (1, 1)] = some 3
    ∧ select_k [(3, 1), (1, 2)] = some 1 :=
  c3_select_best_k [(3, 1), (1, 2)] (by decide)

/-- One loop pass preserves the length of the counter list. -/
theorem evalStep_length :
    ∀ (kv : List (Nat × Nat)) (ps : List Int) (lab : Int),
      ps.length = kv.length → (evalStep kv ps lab).length = kv.length := by
  intro kv
  induction kv with
  | nil => intro ps lab _; cases ps <;> rfl
  | cons x kv ih =>
    intro ps lab hlen
    rcases ps with _ | ⟨p, ps⟩
    · cases hlen
    · rcases x with ⟨k, c⟩
      rw [evalStep, List.length_cons, List.length_cons, ih ps lab (by
        rw [List.length_cons, List.length_cons] at hlen
        omega)]

/-- One loop pass, entry by entry: the counter at position `i` is incremented
exactly when the prediction at position `i` equals the true label; the key is
untouched. -/
theorem evalStep_getElem? :
    ∀ (kv : List (Nat × Nat)) (ps : List Int) (lab : Int) (i : Nat),
      ps.length = kv.length →
      (evalStep kv ps lab)[i]? = (kv[i]?).map
        (fun p => (p.1, if ps[i]? = some lab then p.2 + 1 else p.2)) := by
  intro kv
  induction kv with
  | nil =>
    intro ps lab i hlen
    have : ps = [] := List.eq_nil_of_length_eq_zero (by rw [hlen]; rfl)
    subst this
    rfl
  | cons x kv ih =>
    intro ps lab i hlen
    rcases ps with _ | ⟨p, ps⟩
    · cases hlen
    · rcases x with ⟨k, c⟩
      rw [evalStep]
      rcases i with _ | i
      · rw [List.getElem?_cons_zero, List.getElem?_cons_zero, List.getElem?_cons_zero,
          Option.map_some']
        simp only [Option.some.injEq]
      · rw [List.getElem?_cons_succ, List.getElem?_cons_succ, List.getElem?_cons_succ]
        exact ih ps lab i (by
          rw [List.length_cons, List.length_cons] at hlen
          omega)

/-- One loop pass never changes the keys of the counter list. -/
theorem evalStep_keys :
    ∀ (kv : List (Nat × Nat)) (ps : List Int) (lab : Int),
      ps.length = kv.length →
      (evalStep kv ps lab).map Prod.fst = kv.map Prod.fst := by
  intro kv
  induction kv with
  | nil => intro ps lab _; cases ps <;> rfl
  | cons x kv ih =>
    intro ps lab hlen
    rcases ps with _ | ⟨p, ps⟩
    · cases hlen
    · rcases x with ⟨k, c⟩
      rw [evalStep, List.map_cons, List.map_cons, ih ps lab (by
        rw [List.length_cons, List.length_cons] at hlen
        omega)]

/-- The whole evaluation loop preserves the length of the counter list. -/
theorem runEval_length :
    ∀ (test : List (List Int × Int)) (kv : List (Nat × Nat))
      (predF : List Int → List Int),
      (∀ ex ∈ test, (predF ex.1).length = kv.length) →
      (runEval kv test predF).length = kv.length := by
  intro test
  induction test with
  | nil => intro kv predF _; rfl
  | cons ex t ih =>
    intro kv predF hlen
    have hex : (predF ex.1).length = kv.length := hlen ex (List.mem_cons_self _ _)
    have hstep := evalStep_length kv (predF ex.1) ex.2 hex
    rw [runEval, List.foldl_cons]
    have := ih (evalStep kv (predF ex.1) ex.2) predF (by
      intro ex2 hex2
      rw [hstep]
      exact hlen ex2 (List.mem_cons_of_mem _ hex2))
    rw [runEval] at this
    rw [this, hstep]

/-- The whole evaluation loop never changes the keys of the counter list. -/
theorem runEval_keys :
    ∀ (test : List (List Int × Int)) (kv : List (Nat × Nat))
      (predF : List Int → List Int),
      (∀ ex ∈ test, (predF ex.1).length = kv.length) →
      (runEval kv test predF).map Prod.fst = kv.map Prod.fst := by
  intro test
  induction test with
  | nil => intro kv predF _; rfl
  | cons ex t ih =>
    intro kv predF hlen
    have hex : (predF ex.1).length = kv.length := hlen ex (List.mem_cons_self _ _)
    have hstep := evalStep_length kv (predF ex.1) ex.2 hex
    rw [runEval, List.foldl_cons]
    have := ih (evalStep kv (predF ex.1) ex.2) predF (by
      intro ex2 hex2
      rw [hstep]
      exact hlen ex2 (List.mem_cons_of_mem _ hex2))
    rw [runEval] at this
    rw [this, evalStep_keys kv (predF ex.1) ex.2 hex]

/-- Closed form of the evaluation loop: the final counter at position `i`
is the initial counter plus the number of test examples whose position-`i`
prediction equals their true label. -/
theorem runEval_getElem? :
    ∀ (test : List (List Int × Int)) (kv : List (Nat × Nat))
      (predF : List Int → List Int) (i : Nat),
      (∀ ex ∈ test, (predF ex.1).length = kv.length) →
      (runEval kv test predF)[i]? = (kv[i]?).map
        (fun p => (p.1, p.2 +
          test.countP fun ex => decide ((predF ex.1)[i]? = some ex.2))) := by
  intro test
  induction test with
  | nil =>
    intro kv predF i _
    rw [runEval, List.foldl_nil]
    cases hkv : kv[i]? with
    | none => rfl
    | some p => simp [List.countP_nil]
  | cons ex t ih =>
    intro kv predF i hlen
    have hex : (predF ex.1).length = kv.length := hlen ex (List.mem_cons_self _ _)
    have hstep := evalStep_length kv (predF ex.1) ex.2 hex
    rw [runEval, List.foldl_cons]
    have hrec := ih (evalStep kv (predF ex.1) ex.2) predF i (by
      intro ex2 hex2
      rw [hstep]
      exact hlen ex2 (List.mem_cons_of_mem _ hex2))
    rw [runEval] at hrec
    rw [hrec, evalStep_getElem? kv (predF ex.1) ex.2 i hex]
    cases hkv : kv[i]? with
    | none => rfl
    | some p =>
      rw [Option.map_some', Option.map_some', Option.map_some']
      simp only [Option.some.injEq]
      rw [List.countP_cons]
      by_cases hc : (predF ex.1)[i]? = some ex.2
      · rw [if_pos hc, decide_eq_true hc, if_pos rfl, Prod.mk.injEq]
        exact ⟨rfl, by omega⟩
      · rw [if_neg hc, decide_eq_false hc, if_neg Bool.false_ne_true, Prod.mk.injEq]
        exact ⟨rfl, by omega⟩

/-- C4: starting from all-zero counters, the evaluation loop visits every
test pair once and ends with, at each position `i`, the pair of the `i`-th
candidate k and the number of test examples whose `i`-th prediction equals
the true label; that count is at most `N` (and at least 0, being a natural
number), and the accuracy fraction `count / N` equals the fraction of
correctly predicted test examples. -/
theorem c4_tracker_counts (kList : List Nat) (test : List (List Int × Int))
    (predF : List Int → List Int)
    (hlen : ∀ ex ∈ test, (predF ex.1).length = kList.length) :
    (runEval (initCounters kList) test predF).length = kList.length
    ∧ (∀ i : Nat, (runEval (initCounters kList) test predF)[i]? =
        (kList[i]?).map fun k =>
          (k, test.countP fun ex => decide ((predF ex.1)[i]? = some ex.2)))
    ∧ (∀ i : Nat, ∀ k c : Nat,
        (runEval (initCounters kList) test predF)[i]? = some (k, c) →
        c ≤ test.length
        ∧ (c : ℚ) / (test.length : ℚ) =
            ((test.countP fun ex => decide ((predF ex.1)[i]? = some ex.2)) : ℚ) /
              (test.length : ℚ)) := by
  have hinit : (initCounters kList).length = kList.length := List.length_map _ _
  have hlen2 : ∀ ex ∈ test, (predF ex.1).length = (initCounters kList).length := by
    intro ex hex
    rw [hinit]
    exact hlen ex hex
  have hget : ∀ i : Nat, (runEval (initCounters kList) test predF)[i]? =
      (kList[i]?).map fun k =>
        (k, test.countP fun ex => decide ((predF ex.1)[i]? = some ex.2)) := by
    intro i
    rw [runEval_getElem? test (initCounters kList) predF i hlen2, initCounters,
      List.getElem?_map, Option.map_map]
    cases hkv : kList[i]? with
    | none => rfl
    | some k => simp
  refine ⟨?_, hget, ?_⟩
  · rw [runEval_length test (initCounters kList) predF hlen2, hinit]
  · intro i k c hic
    rw [hget i] at hic
    cases hkl : kList[i]? with
    | none => rw [hkl] at hic; cases hic
    | some k0 =>
      rw [hkl, Option.map_some'] at hic
      have hc : c = test.countP fun ex => decide ((predF ex.1)[i]? = some ex.2) := by
        cases hic; rfl
      constructor
      · rw [hc]; exact List.countP_le_length _
      · rw [hc]

/-- Witness for C4: one candidate k, one test example, correctly predicted. -/
theorem c4_tracker_counts_witness :
    (∀ ex ∈ ([([0], 5)] : List (List Int × Int)),
      ((fun _ => [(5 : Int)]) ex.1).length = ([1] : List Nat).length)
    ∧ ((runEval (initCounters [1]) [([0], 5)] (fun _ => [(5 : Int)])).length =
        ([1] : List Nat).length
      ∧ (∀ i : Nat, (runEval (initCounters [1]) [([0], 5)] (fun _ => [(5 : Int)]))[i]? =
          (([1] : List Nat)[i]?).map fun k =>
            (k, ([([0], 5)] : List (List Int × Int)).countP
              fun ex => decide (((fun _ => [(5 : Int)]) ex.1)[i]? = some ex.2)))
      ∧ (∀ i : Nat, ∀ k c : Nat,
          (runEval (initCounters [1]) [([0], 5)] (fun _ => [(5 : Int)]))[i]? = some (k, c) →
          c ≤ ([([0], 5)] : List (List Int × Int)).length
          ∧ (c : ℚ) / ((([([0], 5)] : List (List Int × Int)).length : Nat) : ℚ) =
              ((([([0], 5)] : List (List Int × Int)).countP
                fun ex => decide (((fun _ => [(5 : Int)]) ex.1)[i]? = some ex.2)) : ℚ) /
                ((([([0], 5)] : List (List Int × Int)).length : Nat) : ℚ))) :=
  ⟨by decide, c4_tracker_counts [1] [([0], 5)] (fun _ => [(5 : Int)]) (by decide)⟩

/-- C5: the headline prediction exposed for user-facing output
(`predictions[-1]` in the driver) is exactly the prediction made by the
last-iterated k of the `CandidateKSet`'s iteration order. -/
theorem c5_headline_last_k (training : List (List Int × Int)) (kList : List Nat)
    (q : List Int) :
    headline training kList q =
      (kList.getLast?).map fun k => (classify (rank q training) k).getD 0 := by
  rw [headline, predictions, List.getLast?_map]

/-- C6: a `CandidateKSet` containing a k below 1 or above the training set
size makes the run fail with `InsufficientNeighbors` before any per-k
prediction is produced (the `Except.error` result carries no counter list and
no prediction); the nonempty-training hypothesis reflects that the modelled
classifier construction validates the dataset before the k values. -/
theorem c6_insufficient_neighbors (training test : List (List Int × Int))
    (kList : List Nat) (htr : training ≠ [])
    (hbad : ∃ k ∈ kList, k < 1 ∨ training.length < k) :
    mainRun training test kList = .error .InsufficientNeighbors := by
  rw [mainRun, if_neg htr, if_pos]
  rw [List.any_eq_true]
  rcases hbad with ⟨k, hk, hcase⟩
  refine ⟨k, hk, ?_⟩
  rw [Bool.or_eq_true, decide_eq_true_eq, decide_eq_true_eq]
  exact hcase

/-- Witness for C6: a single training example with requested k = 2. -/
theorem c6_insufficient_neighbors_witness :
    mainRun [([0], 5)] [] [2] = .error .InsufficientNeighbors :=
  c6_insufficient_neighbors [([0], 5)] [] [2] (by decide)
    ⟨2, by decide, by decide⟩

/-- Counterexample for C7: with one training example and an empty test set,
the run does not fail with `EmptyDataset`; the evaluation loop completes
(zero iterations) and the failure is the division by the test-set size in the
driver's reporting step. -/
theorem c7_counterexample :
    mainRun [([0], 5)] [] [1] = .error .ZeroDivision
    ∧ mainRun [([0], 5)] [] [1] ≠ .error .EmptyDataset := by
  constructor
  · rfl
  · intro h
    cases h

/-- C7 (amended): a run with zero training examples fails with `EmptyDataset`
before the evaluation loop; a run with nonempty training, valid candidate k
values, and zero test examples is not rejected eagerly — the evaluation loop
runs over zero examples, leaving the counters exactly in their initial
all-zero state, and the run then fails with a division-by-zero when the
driver divides by the number of test examples. -/
theorem c7_empty_dataset_amended (training test : List (List Int × Int))
    (kList : List Nat) :
    mainRun [] test kList = .error .EmptyDataset
    ∧ (training ≠ [] →
        kList.any (fun k => decide (k < 1) || decide (training.length < k)) = false →
        mainRun training [] kList = .error .ZeroDivision)
    ∧ runEval (initCounters kList) [] (predictions training kList) =
        initCounters kList := by
  refine ⟨rfl, ?_, rfl⟩
  intro htr hks
  rw [mainRun, if_neg htr, hks]
  rfl

/-- Witness for C7 (amended) at a concrete nonempty training set. -/
theorem c7_empty_dataset_amended_witness :
    mainRun [] [] [1] = .error .EmptyDataset
    ∧ mainRun [([0], 5)] [] [1] = .error .ZeroDivision
    ∧ runEval (initCounters [1]) [] (predictions [([0], 5)] [1]) =
        initCounters [1] :=
  ⟨(c7_empty_dataset_amended [([0], 5)] [] [1]).1,
    (c7_empty_dataset_amended [([0], 5)] [] [1]).2.1 (by decide) (by decide),
    (c7_empty_dataset_amended [([0], 5)] [] [1]).2.2⟩

/-- Counterexample for C8: on a test query whose prediction is wrong, the
counter is not mutated at all during that query's loop pass, so it is not
mutated "exactly once per evaluated test query". -/
theorem c8_counterexample :
    evalStep [(1, 0)] [(5 : Int)] 7 = [(1, 0)]
    ∧ evalStep [(1, 0)] [(5 : Int)] 7 ≠ [(1, 0 + 1)] := by
  constructor
  · rfl
  · intro h
    have := List.head_eq_of_cons_eq h
    cases this

/-- C8 (amended): during one evaluation run each k's counter is mutated at
most once per evaluated test query — incremented by exactly one when that k's
prediction equals the true label and left unchanged otherwise; the loop
changes nothing else: the keys of the counter list are preserved across the
whole run, and the training data enters only as a fixed parameter of the
prediction function, never modified. -/
theorem c8_frame (kv : List (Nat × Nat)) (ps : List Int) (lab : Int)
    (test : List (List Int × Int)) (predF : List Int → List Int)
    (hps : ps.length = kv.length)
    (htest : ∀ ex ∈ test, (predF ex.1).length = kv.length) :
    (∀ i : Nat, (evalStep kv ps lab)[i]? = (kv[i]?).map
        fun p => (p.1, if ps[i]? = some lab then p.2 + 1 else p.2))
    ∧ (evalStep kv ps lab).map Prod.fst = kv.map Prod.fst
    ∧ (runEval kv test predF).map Prod.fst = kv.map Prod.fst := by
  exact ⟨fun i => evalStep_getElem? kv ps lab i hps,
    evalStep_keys kv ps lab hps,
    runEval_keys test kv predF htest⟩

/-- Witness for C8 (amended) at a one-entry counter list and one correct
prediction. -/
theorem c8_frame_witness :
    (∀ i : Nat, (evalStep [(1, 0)] [(5 : Int)] 5)[i]? =
        (([(1, 0)] : List (Nat × Nat))[i]?).map
          fun p => (p.1, if ([(5 : Int)])[i]? = some 5 then p.2 + 1 else p.2))
    ∧ (evalStep [(1, 0)] [(5 : Int)] 5).map Prod.fst =
        ([(1, 0)] : List (Nat × Nat)).map Prod.fst
    ∧ (runEval [(1, 0)] [([0], 5)] (fun _ => [(5 : Int)])).map Prod.fst =
        ([(1, 0)] : List (Nat × Nat)).map Prod.fst :=
  c8_frame [(1, 0)] [(5 : Int)] 5 [([0], 5)] (fun _ => [(5 : Int)])
    (by decide) (by decide)

end KnnSpec
